import Mathlib

set_option maxRecDepth 100000

/-!
Verification of the Text Segmentation & Multi-Voice Chunking Engine of the
obsidian-kokoro-tts plugin (src/src/text-processor.ts), shallowly embedded
over `List Char` (JS strings) and `Nat` (JS non-negative integers).
-/

namespace KokoroTTS

/-- The JavaScript whitespace class (the set matched by `\s` in a regular
expression and stripped by `String.prototype.trim`). -/
def isJsWhitespace (c : Char) : Bool :=
  decide (c = '\t' ∨ c = '\n' ∨ c = '\u000B' ∨ c = '\u000C' ∨ c = '\r' ∨ c = ' ' ∨
    c = ' ' ∨ c = ' ' ∨ (0x2000 ≤ c.val.toNat ∧ c.val.toNat ≤ 0x200A) ∨
    c = ' ' ∨ c = ' ' ∨ c = ' ' ∨ c = ' ' ∨ c = '　' ∨ c = '﻿')

/-- The JavaScript line-terminator class (the characters NOT matched by `.`
in a regular expression without the `s` flag). -/
def isLineTerminator (c : Char) : Bool :=
  decide (c = '\n' ∨ c = '\r' ∨ c = ' ' ∨ c = ' ')

/-- `String.prototype.trim`: strip JS whitespace from both ends. -/
def jsTrim (l : List Char) : List Char :=
  ((l.dropWhile isJsWhitespace).reverse.dropWhile isJsWhitespace).reverse

/-- One character of the quote-normalization pass `QUOTE_PATTERNS`
(text-processor.ts lines 20-24, applied at lines 79-82): U+201C, U+201D,
U+201E, U+201F and the straight quote are all replaced by a straight quote. -/
def normChar (c : Char) : Char :=
  if c = '“' ∨ c = '”' ∨ c = '„' ∨ c = '‟' ∨ c = '"' then '"' else c

/-- The quote-normalization pass: `text.replace(pattern, '"')` for each
of the three `QUOTE_PATTERNS`, i.e. a character map. -/
def normalizeQuotes (l : List Char) : List Char := l.map normChar

def isAsciiLowerAlpha (c : Char) : Bool := decide (97 ≤ c.val.toNat ∧ c.val.toNat ≤ 122)

def isAsciiUpperAlpha (c : Char) : Bool := decide (65 ≤ c.val.toNat ∧ c.val.toNat ≤ 90)

/-- The character class `[a-z]` under the regex `i` flag, i.e. `[a-zA-Z]`. -/
def isAsciiLetter (c : Char) : Bool := isAsciiLowerAlpha c || isAsciiUpperAlpha c

/-- `String.prototype.toLowerCase` restricted to ASCII (all strings the
source lowercases — voice names and the captured `[a-z]+` voice codes — are
ASCII; non-ASCII characters are left unchanged by this model). -/
def lowerChar (c : Char) : Char :=
  if h : 65 ≤ c.val.toNat ∧ c.val.toNat ≤ 90 then
    ⟨c.val + 32, by
      have e32 : (32 : UInt32).toNat = 32 := rfl
      have hlt : c.val.toNat < 2 ^ 32 := c.val.toNat_lt
      have hadd : (c.val + 32).toNat = c.val.toNat + 32 := by
        rw [UInt32.toNat_add, e32]
        have hsz : UInt32.size = 2 ^ 32 := rfl
        rw [hsz]
        omega
      show (c.val + 32).toNat < 0xD800 ∨
        0xE000 ≤ (c.val + 32).toNat ∧ (c.val + 32).toNat < 0x110000
      omega⟩
  else c

def lowerStr (s : String) : String := String.mk (s.data.map lowerChar)

/-- The settings fields consumed by the text processor (settings.ts). -/
structure KokoroTTSSettings where
  selectedVoice : String
  useDistinctVoices : Bool
  quotedTextVoice : String
  asteriskTextVoice : String
  maxChunkLength : Nat
  respectParagraphs : Bool
deriving DecidableEq

/-- The voice lookup table (`TextProcessor.voiceMap`), as an association
list; `mapSet` replaces any previous binding of the key, `mapGet` looks a
key up, mirroring `Map.set` / `Map.get`. -/
def VoiceMap : Type := List (String × String)

def mapSet (m : VoiceMap) (k v : String) : VoiceMap :=
  (List.filter (fun p => p.1 ≠ k) m) ++ [(k, v)]

def mapGet (m : VoiceMap) (k : String) : Option String :=
  (List.find? (fun p => p.1 = k) m).map (fun p => p.2)

/-- `updateVoiceMap`'s `addMapping` (text-processor.ts lines 40-49): if the
full name matches `/^[a-z]{2}_(.+)$/`, bind the lowercased suffix to the
full name; always bind the lowercased full name to the full name. -/
def addMapping (m : VoiceMap) (fullName : String) : VoiceMap :=
  let m1 :=
    match fullName.data with
    | a :: b :: u :: rest =>
      if isAsciiLowerAlpha a = true ∧ isAsciiLowerAlpha b = true ∧ u = '_' ∧ rest ≠ [] ∧
          (∀ c ∈ rest, isLineTerminator c = false) then
        mapSet m (lowerStr (String.mk rest)) fullName
      else m
    | _ => m
  mapSet m1 (lowerStr fullName) fullName

/-- The stock voices registered by `updateVoiceMap` (lines 52-55). -/
def stockVoices : List String :=
  ["af_alloy", "af_aoede", "af_bella", "af_jessica", "af_kore", "af_nicole", "af_nova",
   "af_river", "af_sarah", "af_sky", "am_adam", "am_echo", "am_eric", "am_fenrir",
   "am_liam", "am_michael", "am_onyx", "am_puck", "bf_alice", "bf_emma", "bf_isabella",
   "bf_lily", "bm_daniel", "bm_fable", "bm_george", "bm_lewis"]

def stockVoiceMap : VoiceMap := stockVoices.foldl addMapping []

/-- The regex `/^(af|am|bf|bm)_/` used by `getVoiceFromCode`. -/
def isPrefixedVoiceName (s : String) : Bool :=
  List.isPrefixOf "af_".data s.data || List.isPrefixOf "am_".data s.data ||
  List.isPrefixOf "bf_".data s.data || List.isPrefixOf "bm_".data s.data

/-- `getVoiceFromCode` (text-processor.ts lines 121-142). An empty code and
an unrecognized code both resolve to the configured default voice; a code
bound in the map resolves to its binding (an empty binding is falsy in JS
and falls through to the prefixed-name check). -/
def getVoiceFromCode (vm : VoiceMap) (selectedVoice : String) (code : String) : String :=
  if code = "" then selectedVoice
  else
    let normalizedCode := lowerStr code
    match mapGet vm normalizedCode with
    | some v =>
      if v = "" then
        if isPrefixedVoiceName normalizedCode = true then normalizedCode else selectedVoice
      else v
    | none => selectedVoice

/-- A recorded inline voice assignment (`VoiceAssignment`): `start` is an
offset into the cleaned text. -/
structure VoiceAssignment where
  start : Nat
  voice : String
deriving DecidableEq

/-- One attempted match of the regex `/ktts([a-z]+)(?=")/gi` at the head of
the list: the literal `ktts` (case-insensitive), a maximal non-empty run of
ASCII letters, and a lookahead requiring the next character to be a straight
quote. Returns the total consumed length (4 + number of letters) and the
captured letters. -/
def kttsMatch : List Char → Option (Nat × List Char)
  | k :: t1 :: t2 :: t3 :: rest =>
    if lowerChar k = 'k' ∧ lowerChar t1 = 't' ∧ lowerChar t2 = 't' ∧ lowerChar t3 = 's' then
      let letters := rest.takeWhile isAsciiLetter
      if letters ≠ [] ∧ rest.get? letters.length = some '"' then
        some (4 + letters.length, letters)
      else none
    else none
  | _ => none

/-- Left-to-right scan collecting all non-overlapping matches of the `ktts`
regex, as (index, consumed length, captured letters) triples; the fuel is an
upper bound on the scan steps (each step consumes at least one character). -/
def kttsScanFuel : Nat → List Char → Nat → List (Nat × Nat × List Char)
  | 0, _, _ => []
  | _ + 1, [], _ => []
  | fuel + 1, c :: rest, i =>
    match kttsMatch (c :: rest) with
    | some (n, code) => (i, n, code) :: kttsScanFuel fuel ((c :: rest).drop n) (i + n)
    | none => kttsScanFuel fuel rest (i + 1)

def kttsScan (cs : List Char) : List (Nat × Nat × List Char) := kttsScanFuel cs.length cs 0

/-- `s.slice(0, p) + s.slice(p + len)`: delete `len` characters at `p`. -/
def removeAt (l : List Char) (p len : Nat) : List Char := l.take p ++ l.drop (p + len)

/-- One processed match inside `preprocessText`: record the assignment at the
offset-corrected position (match index minus total length removed so far),
then delete the matched prefix there. -/
def kttsApply (vm : VoiceMap) (selectedVoice : String)
    (acc : List Char × Nat × List VoiceAssignment) (m : Nat × Nat × List Char) :
    List Char × Nat × List VoiceAssignment :=
  let p := m.1 - acc.2.1
  let voice := getVoiceFromCode vm selectedVoice (lowerStr (String.mk m.2.2))
  (removeAt acc.1 p m.2.1, acc.2.1 + m.2.1, acc.2.2 ++ [⟨p, voice⟩])

/-- `preprocessText` (text-processor.ts lines 77-116): normalize quotes,
then fold `kttsApply` over all matches found by the scan. Returns the
cleaned text and the ordered assignment list. -/
def preprocessText (vm : VoiceMap) (selectedVoice : String) (text : List Char) :
    List Char × List VoiceAssignment :=
  let norm := normalizeQuotes text
  let st := (kttsScan norm).foldl (kttsApply vm selectedVoice) (norm, 0, [])
  (st.1, st.2.2)

/-- A typed segment; the type is the source's string tag (`"normal"`,
`"quoted"`, `"asterisk"`, or `"quoted:" ++ voice`). -/
structure TextSegment where
  text : List Char
  type : List Char
deriving DecidableEq

structure SegState where
  segments : List TextSegment
  currentText : List Char
  currentType : List Char
  inQuote : Bool
  inAsterisk : Bool
  vaIdx : Nat

/-- Push the accumulated text as a segment if it is non-empty. -/
def segFlush (st : SegState) : SegState :=
  if st.currentText ≠ [] then
    { st with segments := st.segments ++ [⟨st.currentText, st.currentType⟩], currentText := [] }
  else st

/-- The scan loop of `splitIntoSegments` (text-processor.ts lines 158-192):
quote characters and (outside quotes) asterisks flush the accumulated text
and toggle the segment type; on entering a quote, if the next pending voice
assignment sits exactly at the current index, the quoted segment is typed
`"quoted:" ++ voice` and the assignment is consumed. -/
def segLoop (vas : List VoiceAssignment) : List Char → Nat → SegState → SegState
  | [], _, st => st
  | c :: rest, i, st =>
    if c = '"' then
      let st1 := segFlush st
      let q := !st1.inQuote
      let st2 :=
        match vas.get? st1.vaIdx with
        | some va =>
          if q = true ∧ va.start = i then
            { st1 with
              inQuote := q,
              currentType := "quoted:".data ++ va.voice.data,
              vaIdx := st1.vaIdx + 1 }
          else
            { st1 with
              inQuote := q,
              currentType := if q = true then "quoted".data else "normal".data }
        | none =>
          { st1 with
            inQuote := q,
            currentType := if q = true then "quoted".data else "normal".data }
      segLoop vas rest (i + 1) st2
    else if c = '*' ∧ st.inQuote = false then
      let st1 := segFlush st
      let a := !st1.inAsterisk
      segLoop vas rest (i + 1)
        { st1 with
          inAsterisk := a,
          currentType := if a = true then "asterisk".data else "normal".data }
    else
      segLoop vas rest (i + 1) { st with currentText := st.currentText ++ [c] }

/-- `splitIntoSegments` (text-processor.ts lines 147-200). -/
def splitIntoSegments (vm : VoiceMap) (selectedVoice : String) (text : List Char) :
    List TextSegment :=
  let pre := preprocessText vm selectedVoice text
  let st := segLoop pre.2 pre.1 0 ⟨[], [], "normal".data, false, false, 0⟩
  (segFlush st).segments

/-- The sentence-closing test of `splitPreservingQuotes` (lines 218-230):
a unit closes at a terminator character only outside a quotation and only
when the next character is a space, a newline, or absent. `q` is the quote
flag AFTER processing the current character. -/
def spqCloses (q : Bool) (c : Char) (rest : List Char) : Bool :=
  !q && decide (c = '.' ∨ c = '!' ∨ c = '?') &&
    (match rest.head? with
     | none => true
     | some d => decide (d = ' ' ∨ d = '\n'))

/-- The scan loop of `splitPreservingQuotes` (lines 211-236): accumulate a
buffer, toggle the local quote flag on every quotation mark, and close a
unit (pushing the trimmed sentence) exactly when `spqCloses` holds. -/
def spqLoop : List Char → Bool → List Char → List Char → List (List Char) → List (List Char)
  | [], _, cur, buf, acc =>
    if buf ≠ [] ∨ cur ≠ [] then acc ++ [jsTrim (cur ++ buf)] else acc
  | c :: rest, inQuote, cur, buf, acc =>
    let buf1 := buf ++ [c]
    let q := if c = '"' then !inQuote else inQuote
    if spqCloses q c rest = true then
      spqLoop rest q [] [] (acc ++ [jsTrim (cur ++ buf1)])
    else
      spqLoop rest q cur buf1 acc

/-- `splitPreservingQuotes` (text-processor.ts lines 205-244). -/
def splitPreservingQuotes (text : List Char) : List (List Char) :=
  (spqLoop text false [] [] []).filter (fun s => s.length > 0)

/-- The regex `/^quoted:(.+)$/` of `getVoiceForSegment`: the tag must start
with `quoted:` and the remainder must be non-empty and free of line
terminators (which `.` does not match). -/
def inlineVoiceMatch (segType : List Char) : Option String :=
  if List.isPrefixOf "quoted:".data segType = true then
    let rest := segType.drop 7
    if rest ≠ [] ∧ (∀ c ∈ rest, isLineTerminator c = false) then some (String.mk rest)
    else none
  else none

/-- `getVoiceForSegment` (text-processor.ts lines 249-269): an inline voice
tag wins; otherwise `useDistinctVoices` selects between the configured
special voices and the default. -/
def getVoiceForSegment (s : KokoroTTSSettings) (segType : List Char) : String :=
  match inlineVoiceMatch segType with
  | some v => v
  | none =>
    if s.useDistinctVoices = false then s.selectedVoice
    else if segType = "quoted".data then s.quotedTextVoice
    else if segType = "asterisk".data then s.asteriskTextVoice
    else s.selectedVoice

/-- `remaining.lastIndexOf(' ', fromIdx)`: the largest index `≤ fromIdx`
holding a space, if any. -/
def jsLastIndexOfSpace (l : List Char) (fromIdx : Nat) : Option Nat :=
  let pre := l.take (fromIdx + 1)
  match pre.reverse.findIdx? (fun c => c == ' ') with
  | some j => some (pre.length - 1 - j)
  | none => none

/-- An emitted chunk: text plus the voice resolved for its segment. -/
structure TextChunk where
  text : List Char
  voice : String
deriving DecidableEq

/-- The `while (remainingSentence.length > maxChunkLength)` loop of
`splitIntoChunks` (lines 301-317): cut at the last space at or before the
limit, or hard-cut at exactly the limit when no space is available; each cut
piece is trimmed and emitted. Returns the emitted pieces and the final
remainder (`≤ maxLen` whenever the fuel covers the input length and
`maxLen > 0`; the JS loop does not terminate when `maxLen = 0`). -/
def hardSplitFuel : Nat → Nat → List Char → List (List Char) × List Char
  | 0, _, rem => ([], rem)
  | fuel + 1, maxLen, rem =>
    if rem.length > maxLen then
      match jsLastIndexOfSpace rem maxLen with
      | none =>
        let r := hardSplitFuel fuel maxLen (rem.drop maxLen)
        (jsTrim (rem.take maxLen) :: r.1, r.2)
      | some ls =>
        let r := hardSplitFuel fuel maxLen (rem.drop (ls + 1))
        (jsTrim (rem.take ls) :: r.1, r.2)
    else ([], rem)

def hardSplit (maxLen : Nat) (rem : List Char) : List (List Char) × List Char :=
  hardSplitFuel rem.length maxLen rem

/-- One iteration of the greedy packer (lines 290-331), acting on the state
(chunks emitted so far, accumulating `currentChunk`). -/
def packStep (maxLen : Nat) (voice : String) (st : List TextChunk × List Char)
    (sentence : List Char) : List TextChunk × List Char :=
  let t := jsTrim sentence
  if t.length > maxLen then
    let chunks1 := if st.2 ≠ [] then st.1 ++ [⟨jsTrim st.2, voice⟩] else st.1
    let hs := hardSplit maxLen t
    (chunks1 ++ hs.1.map (fun c => ⟨c, voice⟩), hs.2)
  else if st.2.length + t.length + 1 > maxLen then
    (st.1 ++ [⟨jsTrim st.2, voice⟩], t)
  else
    (st.1, st.2 ++ (if st.2 ≠ [] then [' '] else []) ++ t)

/-- The per-segment packing loop of `splitIntoChunks` (lines 288-335):
fold the sentences through `packStep` starting from an empty buffer, then
flush a non-empty final buffer. -/
def packSentences (maxLen : Nat) (voice : String) (sentences : List (List Char)) :
    List TextChunk :=
  let st := sentences.foldl (packStep maxLen voice) ([], [])
  if st.2 ≠ [] then st.1 ++ [⟨jsTrim st.2, voice⟩] else st.1

/-- The blank-line separator of `text.split(/\n\s*\n/)`: given the text
after a newline, the regex consumes the whitespace run up to (and
including) its last newline, if the run contains one. Returns the number of
characters consumed after the initial newline. -/
def blankSepLen (rest : List Char) : Option Nat :=
  let run := rest.takeWhile isJsWhitespace
  match run.reverse.findIdx? (fun c => c == '\n') with
  | some j => some (run.length - j)
  | none => none

/-- The scanner realizing `text.split(/\n\s*\n/)`; the fuel bounds the scan
steps (each consumes at least one character). -/
def splitParsFuel : Nat → List Char → List Char → List (List Char)
  | 0, cur, rest => [cur ++ rest]
  | _ + 1, cur, [] => [cur]
  | fuel + 1, cur, c :: rest =>
    if c = '\n' then
      match blankSepLen rest with
      | some k => cur :: splitParsFuel fuel [] (rest.drop k)
      | none => splitParsFuel fuel (cur ++ [c]) rest
    else splitParsFuel fuel (cur ++ [c]) rest

def splitParagraphs (text : List Char) : List (List Char) :=
  splitParsFuel text.length [] text

/-- The chunks produced from one paragraph: segment it, then per segment
resolve the voice, split into sentence units and pack them. -/
def paragraphChunks (vm : VoiceMap) (s : KokoroTTSSettings) (paragraph : List Char) :
    List TextChunk :=
  ((splitIntoSegments vm s.selectedVoice paragraph).map (fun seg =>
    packSentences s.maxChunkLength (getVoiceForSegment s seg.type)
      (splitPreservingQuotes seg.text))).flatten

/-- `splitIntoChunks` (text-processor.ts lines 271-340), the engine's
entry point: optionally split into paragraphs, then segment, sentence-split
and pack each paragraph independently. -/
def splitIntoChunks (vm : VoiceMap) (s : KokoroTTSSettings) (text : List Char) :
    List TextChunk :=
  let paragraphs := if s.respectParagraphs = true then splitParagraphs text else [text]
  (paragraphs.map (fun p =>
    ((splitIntoSegments vm s.selectedVoice p).map (fun seg =>
      packSentences s.maxChunkLength (getVoiceForSegment s seg.type)
        (splitPreservingQuotes seg.text))).flatten)).flatten

/-- The default settings of settings.ts (`DEFAULT_SETTINGS`), restricted to
the fields the text processor reads. -/
def defaultSettings : KokoroTTSSettings :=
  { selectedVoice := "af_bella", useDistinctVoices := false, quotedTextVoice := "af_bella",
    asteriskTextVoice := "af_bella", maxChunkLength := 500, respectParagraphs := true }


/-! ### Example configurations used by concrete evaluations -/

def cfg5 : KokoroTTSSettings :=
  { defaultSettings with maxChunkLength := 5, respectParagraphs := false }

def cfg2 : KokoroTTSSettings := { defaultSettings with maxChunkLength := 2 }

def cfg6 : KokoroTTSSettings := { defaultSettings with maxChunkLength := 6 }

/-! ### Basic lemmas about trimming and scanning -/

theorem length_dropWhile_le (p : Char → Bool) (l : List Char) :
    (l.dropWhile p).length ≤ l.length := by
  induction l with
  | nil => simp
  | cons a l ih =>
    rw [List.dropWhile_cons]
    split
    · exact Nat.le_trans ih (by simp)
    · exact Nat.le_refl _

theorem jsTrim_length_le (l : List Char) : (jsTrim l).length ≤ l.length := by
  rw [jsTrim]
  calc ((l.dropWhile isJsWhitespace).reverse.dropWhile isJsWhitespace).reverse.length
      = ((l.dropWhile isJsWhitespace).reverse.dropWhile isJsWhitespace).length := by
        rw [List.length_reverse]
    _ ≤ (l.dropWhile isJsWhitespace).reverse.length := length_dropWhile_le _ _
    _ = (l.dropWhile isJsWhitespace).length := by rw [List.length_reverse]
    _ ≤ l.length := length_dropWhile_le _ _

theorem dropWhile_eq_self_of_none (p : Char → Bool) (l : List Char)
    (h : ∀ c ∈ l, p c = false) : l.dropWhile p = l := by
  cases l with
  | nil => rfl
  | cons a l =>
    rw [List.dropWhile_cons, if_neg]
    rw [h a (List.mem_cons_self a l)]
    simp

theorem jsTrim_eq_self (l : List Char) (h : ∀ c ∈ l, isJsWhitespace c = false) :
    jsTrim l = l := by
  rw [jsTrim, dropWhile_eq_self_of_none _ _ h, dropWhile_eq_self_of_none, List.reverse_reverse]
  intro c hc
  exact h c (List.mem_reverse.mp hc)

theorem get?_drop_eq (l : List Char) (n k : Nat) : (l.drop n).get? k = l.get? (n + k) := by
  induction n generalizing l with
  | zero => simp
  | succ n ih =>
    cases l with
    | nil => simp
    | cons a l =>
      rw [List.drop_succ_cons, ih]
      have harith : n + 1 + k = (n + k) + 1 := by omega
      rw [harith]
      rfl

theorem get?_of_drop_eq_cons (l : List Char) (n : Nat) (a : Char) (t : List Char)
    (h : l.drop n = a :: t) : l.get? n = some a := by
  have := get?_drop_eq l n 0
  rw [h] at this
  simpa using this.symm

/-! ### Claim C9: quote normalization is idempotent -/

/-- C9: applying the quote-normalization pass twice yields the same result
as applying it once; and normalizing text containing no smart-quote variant
(i.e. only canonical straight quotes, if any) is the identity. -/
theorem normalize_quotes_idempotent :
    (∀ l : List Char, normalizeQuotes (normalizeQuotes l) = normalizeQuotes l) ∧
    (∀ l : List Char, (∀ c ∈ l, c ≠ '“' ∧ c ≠ '”' ∧ c ≠ '„' ∧ c ≠ '‟') →
      normalizeQuotes l = l) := by
  have hvar : ∀ d : Char, (d = '“' ∨ d = '”' ∨ d = '„' ∨ d = '‟' ∨ d = '"') →
      normChar d = '"' := by
    intro d hd
    rw [normChar, if_pos hd]
  have hnot : ∀ d : Char, ¬(d = '“' ∨ d = '”' ∨ d = '„' ∨ d = '‟' ∨ d = '"') →
      normChar d = d := by
    intro d hd
    rw [normChar, if_neg hd]
  have hchar : ∀ c : Char, normChar (normChar c) = normChar c := by
    intro c
    by_cases h : c = '“' ∨ c = '”' ∨ c = '„' ∨ c = '‟' ∨ c = '"'
    · rw [hvar c h]
      exact hvar '"' (Or.inr (Or.inr (Or.inr (Or.inr rfl))))
    · rw [hnot c h]
      exact hnot c h
  constructor
  · intro l
    rw [normalizeQuotes, normalizeQuotes, List.map_map]
    exact List.map_congr_left (fun c _ => hchar c)
  · intro l h
    rw [normalizeQuotes]
    have : ∀ c ∈ l, normChar c = c := by
      intro c hc
      obtain ⟨h1, h2, h3, h4⟩ := h c hc
      by_cases h5 : c = '"'
      · rw [normChar, h5, if_pos (by right; right; right; right; rfl)]
      · rw [normChar, if_neg]
        simp [h1, h2, h3, h4, h5]
    calc l.map normChar = l.map id := List.map_congr_left (fun c hc => this c hc)
      _ = l := List.map_id l

/-- C9 witness: normalizing text with only straight quotes is a no-op. -/
theorem normalize_quotes_idempotent_example :
    normalizeQuotes "He said \"hi\".".data = "He said \"hi\".".data :=
  normalize_quotes_idempotent.2 _ (by decide)

/-! ### Claim C10: inline voice codes take priority over useDistinctVoices -/

theorem getVoiceForSegment_inline (s : KokoroTTSSettings) (v : String)
    (hne : v.data ≠ []) (hnl : ∀ c ∈ v.data, isLineTerminator c = false) :
    getVoiceForSegment s ("quoted:".data ++ v.data) = v := by
  have hp : List.isPrefixOf "quoted:".data ("quoted:".data ++ v.data) = true := by
    rw [List.isPrefixOf_iff_prefix]
    exact List.prefix_append _ _
  have hd : ("quoted:".data ++ v.data).drop 7 = v.data := List.drop_left' (by decide)
  have him : inlineVoiceMatch ("quoted:".data ++ v.data) = some v := by
    rw [inlineVoiceMatch, if_pos hp]
    simp only [hd]
    rw [if_pos ⟨hne, hnl⟩]
  rw [getVoiceForSegment, him]

/-- C10: for any settings (in particular `useDistinctVoices = false`), a
segment typed `quoted:<voice>` (voice non-empty, no line terminators, as
required by the regex `/^quoted:(.+)$/`) resolves to the inline voice; the
`useDistinctVoices` switch is never consulted. -/
theorem inline_voice_priority (s : KokoroTTSSettings) (v : String)
    (hne : v.data ≠ []) (hnl : ∀ c ∈ v.data, isLineTerminator c = false) :
    getVoiceForSegment s ("quoted:".data ++ v.data) = v :=
  getVoiceForSegment_inline s v hne hnl

/-- C10 witness: with distinct voices disabled, the inline voice still wins. -/
theorem inline_voice_priority_example :
    defaultSettings.useDistinctVoices = false ∧
    getVoiceForSegment defaultSettings ("quoted:".data ++ "af_sky".data) = "af_sky" :=
  ⟨rfl, inline_voice_priority defaultSettings "af_sky" (by decide) (by decide)⟩

/-! ### Claim C6: the sentence-terminator closing condition -/

/-- C6: in the quote-aware sentence splitter, a unit is closed at a
character only if that character is a terminator, the (toggled) quote flag
is off, and the following character is whitespace or absent; whenever the
closing condition fails, the scan continues with the buffer extended and
no unit emitted. -/
theorem sentence_close_condition :
    ∀ (q : Bool) (c : Char) (rest : List Char),
      (spqCloses q c rest = true →
        (c = '.' ∨ c = '!' ∨ c = '?') ∧ q = false ∧
        (rest.head? = none ∨ ∃ d, rest.head? = some d ∧ isJsWhitespace d = true)) ∧
      (spqCloses (if c = '"' then !q else q) c rest = false →
        ∀ cur buf acc,
          spqLoop (c :: rest) q cur buf acc =
            spqLoop rest (if c = '"' then !q else q) cur (buf ++ [c]) acc) := by
  intro q c rest
  constructor
  · intro h
    rw [spqCloses] at h
    simp only [Bool.and_eq_true, Bool.not_eq_true', decide_eq_true_eq] at h
    obtain ⟨⟨hq, hterm⟩, hnext⟩ := h
    refine ⟨hterm, hq, ?_⟩
    cases hh : rest.head? with
    | none => exact Or.inl rfl
    | some d =>
      refine Or.inr ⟨d, rfl, ?_⟩
      rw [hh] at hnext
      simp only [decide_eq_true_eq] at hnext
      rcases hnext with h1 | h1 <;> rw [h1] <;> decide
  · intro h cur buf acc
    rw [spqLoop]
    simp only [h]
    simp

/-- C6 witness: a period at end-of-input outside a quotation closes the
unit, and the closing condition indeed certifies terminator, flag-off and
end-of-input. -/
theorem sentence_close_condition_example :
    ('.' = '.' ∨ '.' = '!' ∨ '.' = '?') ∧ false = false ∧
      (([] : List Char).head? = none ∨
        ∃ d, ([] : List Char).head? = some d ∧ isJsWhitespace d = true) :=
  (sentence_close_condition false '.' []).1 (by decide)

/-! ### Claim C5 (code bug): an empty chunk can be emitted -/

/-- C5 (refuted by the code): on input `abcde` with `maxChunkLength = 5`,
the packer pushes `currentChunk.trim()` while `currentChunk` is still
empty (the guard at text-processor.ts line 325 fires because
`0 + 5 + 1 > 5`), emitting a chunk whose text is empty. -/
theorem empty_chunk_emitted :
    splitIntoChunks stockVoiceMap cfg5 "abcde".data =
      [⟨[], "af_bella"⟩, ⟨"abcde".data, "af_bella"⟩] ∧
    (⟨[], "af_bella"⟩ : TextChunk) ∈ splitIntoChunks stockVoiceMap cfg5 "abcde".data := by
  decide

/-! ### Claim C3 counterexample: an assignment at a closing quote -/

/-- C3 (counterexample to the "opening quotation mark" part): on input
`"x kttsbella" y`, the single produced assignment has position 3, and the
quotation mark at offset 3 of the cleaned text `"x " y` is preceded by an
odd number of quotes, i.e. it is a closing quote. -/
theorem assignment_at_closing_quote :
    (preprocessText stockVoiceMap "af_bella" "\"x kttsbella\" y".data).2 =
      [⟨3, "af_bella"⟩] ∧
    (preprocessText stockVoiceMap "af_bella" "\"x kttsbella\" y".data).1.get? 3 =
      some '"' ∧
    ((preprocessText stockVoiceMap "af_bella" "\"x kttsbella\" y".data).1.take 3).count '"'
      % 2 = 1 := by
  decide

/-! ### Claim C4 counterexample: a small limit breaks the single chunk -/

/-- C4 (counterexample to "any configuration"): with `maxChunkLength = 2`
(a positive, hence per §3 valid, value), `kttsbella"hello"` is hard-split
into three chunks, not one chunk `hello`. -/
theorem voice_code_small_limit_cex :
    0 < cfg2.maxChunkLength ∧
    splitIntoChunks stockVoiceMap cfg2 "kttsbella\"hello\"".data =
      [⟨"he".data, "af_bella"⟩, ⟨"ll".data, "af_bella"⟩, ⟨"o".data, "af_bella"⟩] ∧
    (splitIntoChunks stockVoiceMap cfg2 "kttsbella\"hello\"".data).length ≠ 1 := by
  decide


/-! ### Claim C8 counterexample: a small limit separates Stop. and Now. -/

/-- C8 (counterexample to "every configuration with maxChunkLength > 0"):
with `maxChunkLength = 6` the quoted clause is packed as two different
chunks `Stop.` and `Now.`. -/
theorem quoted_period_split_cex :
    0 < cfg6.maxChunkLength ∧
    (splitIntoChunks stockVoiceMap cfg6 "He said \"Stop. Now.\" and left.".data).map
        (fun c => c.text) =
      ["He".data, "said".data, "Stop.".data, "Now.".data, "and".data, "left.".data] := by
  decide

/-! ### Claim C7: paragraph isolation -/

/-- C7: with `respectParagraphs = true` the output is the concatenation of
the chunk lists computed independently per blank-line-delimited paragraph
(the packer state is re-created per paragraph, in fact per segment), so
every chunk comes entirely from a single paragraph. -/
theorem paragraph_isolation (vm : VoiceMap) (s : KokoroTTSSettings) (text : List Char)
    (h : s.respectParagraphs = true) :
    splitIntoChunks vm s text = ((splitParagraphs text).map (paragraphChunks vm s)).flatten ∧
    ∀ c ∈ splitIntoChunks vm s text, ∃ p ∈ splitParagraphs text, c ∈ paragraphChunks vm s p := by
  have he : splitIntoChunks vm s text =
      ((splitParagraphs text).map (paragraphChunks vm s)).flatten := by
    rw [splitIntoChunks, h]
    rfl
  refine ⟨he, ?_⟩
  intro c hc
  rw [he, List.mem_flatten] at hc
  obtain ⟨l, hl, hcl⟩ := hc
  rw [List.mem_map] at hl
  obtain ⟨p, hp, rfl⟩ := hl
  exact ⟨p, hp, hcl⟩

/-- C7 witness: the chunk `One.` of a two-paragraph note comes from its
first paragraph. -/
theorem paragraph_isolation_example :
    ∃ p ∈ splitParagraphs "One.\n\nTwo.".data,
      (⟨"One.".data, "af_bella"⟩ : TextChunk) ∈ paragraphChunks stockVoiceMap defaultSettings p :=
  (paragraph_isolation stockVoiceMap defaultSettings "One.\n\nTwo.".data rfl).2
    ⟨"One.".data, "af_bella"⟩ (by decide)

/-! ### Claim C1: chunk length invariant -/

theorem jsLastIndexOfSpace_le (l : List Char) (k i : Nat)
    (h : jsLastIndexOfSpace l k = some i) : i ≤ k := by
  rw [jsLastIndexOfSpace] at h
  have hlen : (l.take (k + 1)).length ≤ k + 1 := by
    rw [List.length_take]
    omega
  cases hf : (l.take (k + 1)).reverse.findIdx? (fun c => c == ' ') with
  | none => rw [hf] at h; exact absurd h (by simp)
  | some j =>
    rw [hf] at h
    have : (l.take (k + 1)).length - 1 - j = i := by
      have := Option.some.inj h
      omega
    omega

theorem hardSplitFuel_chunks_le (fuel maxLen : Nat) :
    ∀ (rem : List Char), ∀ c ∈ (hardSplitFuel fuel maxLen rem).1, c.length ≤ maxLen := by
  induction fuel with
  | zero =>
    intro rem c hc
    simp [hardSplitFuel] at hc
  | succ fuel ih =>
    intro rem c hc
    rw [hardSplitFuel] at hc
    by_cases hlen : rem.length > maxLen
    · rw [if_pos hlen] at hc
      cases hls : jsLastIndexOfSpace rem maxLen with
      | none =>
        rw [hls] at hc
        simp only [List.mem_cons] at hc
        rcases hc with rfl | hc
        · calc (jsTrim (rem.take maxLen)).length
              ≤ (rem.take maxLen).length := jsTrim_length_le _
            _ ≤ maxLen := by rw [List.length_take]; omega
        · exact ih _ c hc
      | some ls =>
        rw [hls] at hc
        simp only [List.mem_cons] at hc
        have hle : ls ≤ maxLen := jsLastIndexOfSpace_le rem maxLen ls hls
        rcases hc with rfl | hc
        · calc (jsTrim (rem.take ls)).length
              ≤ (rem.take ls).length := jsTrim_length_le _
            _ ≤ maxLen := by rw [List.length_take]; omega
        · exact ih _ c hc
    · rw [if_neg hlen] at hc
      simp at hc

theorem hardSplitFuel_rem_le (fuel maxLen : Nat) (hpos : 0 < maxLen) :
    ∀ (rem : List Char), rem.length ≤ fuel + maxLen →
      (hardSplitFuel fuel maxLen rem).2.length ≤ maxLen := by
  induction fuel with
  | zero =>
    intro rem hfuel
    show rem.length ≤ maxLen
    omega
  | succ fuel ih =>
    intro rem hfuel
    rw [hardSplitFuel]
    by_cases hlen : rem.length > maxLen
    · rw [if_pos hlen]
      cases hls : jsLastIndexOfSpace rem maxLen with
      | none =>
        show (hardSplitFuel fuel maxLen (rem.drop maxLen)).2.length ≤ maxLen
        apply ih
        rw [List.length_drop]
        omega
      | some ls =>
        show (hardSplitFuel fuel maxLen (rem.drop (ls + 1))).2.length ≤ maxLen
        apply ih
        rw [List.length_drop]
        omega
    · rw [if_neg hlen]
      show rem.length ≤ maxLen
      omega

/-- The packer invariant: all emitted chunk texts and the accumulating
buffer stay within the limit. -/
def packInv (maxLen : Nat) (st : List TextChunk × List Char) : Prop :=
  (∀ c ∈ st.1, c.text.length ≤ maxLen) ∧ st.2.length ≤ maxLen

theorem packStep_inv (maxLen : Nat) (voice : String) (st : List TextChunk × List Char)
    (sentence : List Char) (hpos : 0 < maxLen) (h : packInv maxLen st) :
    packInv maxLen (packStep maxLen voice st sentence) := by
  obtain ⟨h1, h2⟩ := h
  rw [packStep]
  by_cases hbig : (jsTrim sentence).length > maxLen
  · rw [if_pos hbig]
    constructor
    · intro c hc
      simp only [List.mem_append, List.mem_map] at hc
      rcases hc with hc | ⟨t, ht, rfl⟩
      · by_cases hcur : st.2 ≠ []
        · rw [if_pos hcur] at hc
          simp only [List.mem_append, List.mem_singleton] at hc
          rcases hc with hc | rfl
          · exact h1 c hc
          · exact Nat.le_trans (jsTrim_length_le _) h2
        · rw [if_neg hcur] at hc
          exact h1 c hc
      · exact hardSplitFuel_chunks_le _ _ _ _ ht
    · exact hardSplitFuel_rem_le _ _ hpos _ (by omega)
  · rw [if_neg hbig]
    by_cases hfit : st.2.length + (jsTrim sentence).length + 1 > maxLen
    · rw [if_pos hfit]
      constructor
      · intro c hc
        simp only [List.mem_append, List.mem_singleton] at hc
        rcases hc with hc | rfl
        · exact h1 c hc
        · exact Nat.le_trans (jsTrim_length_le _) h2
      · show (jsTrim sentence).length ≤ maxLen
        omega
    · rw [if_neg hfit]
      refine ⟨h1, ?_⟩
      simp only [List.length_append]
      by_cases hcur : st.2 ≠ []
      · rw [if_pos hcur]
        simp only [List.length_singleton]
        omega
      · rw [if_neg hcur]
        simp only [List.length_nil]
        omega

theorem foldl_pack_inv (maxLen : Nat) (voice : String) (sentences : List (List Char))
    (hpos : 0 < maxLen) :
    ∀ (st : List TextChunk × List Char), packInv maxLen st →
      packInv maxLen (sentences.foldl (packStep maxLen voice) st) := by
  induction sentences with
  | nil => intro st h; exact h
  | cons a l ih =>
    intro st h
    exact ih _ (packStep_inv maxLen voice st a hpos h)

theorem packSentences_length_le (maxLen : Nat) (voice : String)
    (sentences : List (List Char)) (hpos : 0 < maxLen) :
    ∀ c ∈ packSentences maxLen voice sentences, c.text.length ≤ maxLen := by
  intro c hc
  rw [packSentences] at hc
  have hinv := foldl_pack_inv maxLen voice sentences hpos ([], [])
    ⟨by intro c hc; simp at hc, by simp⟩
  obtain ⟨hi1, hi2⟩ := hinv
  by_cases hcur : (sentences.foldl (packStep maxLen voice) ([], [])).2 ≠ []
  · rw [if_pos hcur] at hc
    simp only [List.mem_append, List.mem_singleton] at hc
    rcases hc with hc | rfl
    · exact hi1 c hc
    · exact Nat.le_trans (jsTrim_length_le _) hi2
  · rw [if_neg hcur] at hc
    exact hi1 c hc

/-- C1: with a positive `maxChunkLength`, EVERY chunk produced by
`splitIntoChunks` has text length at most `maxChunkLength` — including the
chunks produced by hard-splitting an over-long whitespace-free token run
(the hard cut is at exactly the limit), and the hard-split loop terminates.
This is stronger than the claim, which allowed the hard-split case to
exceed the limit. -/
theorem chunk_length_invariant (vm : VoiceMap) (s : KokoroTTSSettings) (text : List Char)
    (hpos : 0 < s.maxChunkLength) :
    ∀ c ∈ splitIntoChunks vm s text, c.text.length ≤ s.maxChunkLength := by
  intro c hc
  rw [splitIntoChunks] at hc
  simp only [List.mem_flatten, List.mem_map] at hc
  obtain ⟨l, ⟨p, hp, rfl⟩, hcl⟩ := hc
  simp only [List.mem_flatten, List.mem_map] at hcl
  obtain ⟨l2, ⟨seg, hseg, rfl⟩, hcl2⟩ := hcl
  exact packSentences_length_le _ _ _ hpos c hcl2

/-- C1 witness: on `hello world` with limit 5 the chunk `hello` is
produced and obeys the bound. -/
theorem chunk_length_invariant_example :
    (⟨"hello".data, "af_bella"⟩ : TextChunk) ∈
      splitIntoChunks stockVoiceMap cfg5 "hello world".data ∧
    ("hello".data : List Char).length ≤ cfg5.maxChunkLength :=
  ⟨by decide, chunk_length_invariant stockVoiceMap cfg5 "hello world".data (by decide)
      ⟨"hello".data, "af_bella"⟩ (by decide)⟩

/-! ### Claim C2: forced hard split of an over-long whitespace-free token -/

theorem jsLastIndexOfSpace_eq_none (l : List Char) (k : Nat)
    (h : ∀ c ∈ l, isJsWhitespace c = false) : jsLastIndexOfSpace l k = none := by
  rw [jsLastIndexOfSpace]
  have hf : (l.take (k + 1)).reverse.findIdx? (fun c => c == ' ') = none := by
    rw [List.findIdx?_eq_none_iff]
    intro x hx
    have hxl : x ∈ l := List.mem_of_mem_take (List.mem_reverse.mp hx)
    have hxw := h x hxl
    show (x == ' ') = false
    rw [beq_eq_false_iff_ne]
    intro hsp
    rw [hsp] at hxw
    exact absurd hxw (by decide)
  rw [hf]

theorem hardSplit_no_space (maxLen : Nat) (hpos : 0 < maxLen) :
    ∀ (fuel : Nat) (t : List Char), t.length ≤ fuel + maxLen →
      (∀ c ∈ t, isJsWhitespace c = false) →
      (hardSplitFuel fuel maxLen t).1.flatten ++ (hardSplitFuel fuel maxLen t).2 = t ∧
      (∀ c ∈ (hardSplitFuel fuel maxLen t).1, c.length = maxLen) ∧
      (hardSplitFuel fuel maxLen t).2.length ≤ maxLen ∧
      (∀ c ∈ (hardSplitFuel fuel maxLen t).2, isJsWhitespace c = false) := by
  intro fuel
  induction fuel with
  | zero =>
    intro t hfuel hws
    refine ⟨by simp [hardSplitFuel], ?_, ?_, ?_⟩
    · intro c hc
      simp [hardSplitFuel] at hc
    · show t.length ≤ maxLen
      omega
    · intro c hc
      exact hws c hc
  | succ fuel ih =>
    intro t hfuel hws
    rw [hardSplitFuel]
    by_cases hlen : t.length > maxLen
    · rw [if_pos hlen, jsLastIndexOfSpace_eq_none t maxLen hws]
      have hws' : ∀ c ∈ t.drop maxLen, isJsWhitespace c = false :=
        fun c hc => hws c (List.mem_of_mem_drop hc)
      have hfuel' : (t.drop maxLen).length ≤ fuel + maxLen := by
        rw [List.length_drop]
        omega
      obtain ⟨ihj, ihc, ihr, ihw⟩ := ih (t.drop maxLen) hfuel' hws'
      have htr : jsTrim (t.take maxLen) = t.take maxLen :=
        jsTrim_eq_self _ (fun c hc => hws c (List.mem_of_mem_take hc))
      refine ⟨?_, ?_, ihr, ihw⟩
      · show (jsTrim (t.take maxLen) ::
            (hardSplitFuel fuel maxLen (t.drop maxLen)).1).flatten ++
            (hardSplitFuel fuel maxLen (t.drop maxLen)).2 = t
        rw [htr, List.flatten_cons, List.append_assoc, ihj, List.take_append_drop]
      · intro c hc
        show c.length = maxLen
        have hc2 : c ∈ jsTrim (t.take maxLen) ::
            (hardSplitFuel fuel maxLen (t.drop maxLen)).1 := hc
        simp only [List.mem_cons] at hc2
        rcases hc2 with rfl | hc2
        · rw [htr, List.length_take]
          omega
        · exact ihc c hc2
    · rw [if_neg hlen]
      refine ⟨by simp, ?_, ?_, ?_⟩
      · intro c hc
        simp at hc
      · show t.length ≤ maxLen
        omega
      · intro c hc
        exact hws c hc

/-- C2: a single whitespace-free sentence unit longer than the limit is
packed into consecutive chunks that are all exactly `maxChunkLength`
characters long except possibly the last (which is at most the limit),
whose concatenation in order is exactly the original token, all carrying
the segment's voice. -/
theorem hard_split_exact (maxLen : Nat) (voice : String) (t : List Char)
    (hws : ∀ c ∈ t, isJsWhitespace c = false) (hlen : maxLen < t.length)
    (hpos : 0 < maxLen) :
    ((packSentences maxLen voice [t]).map (fun c => c.text)).flatten = t ∧
    (∀ c ∈ (packSentences maxLen voice [t]).dropLast, c.text.length = maxLen) ∧
    (∀ c ∈ packSentences maxLen voice [t], c.text.length ≤ maxLen) ∧
    (∀ c ∈ packSentences maxLen voice [t], c.voice = voice) := by
  obtain ⟨hj, hc, hr, hw⟩ :=
    hardSplit_no_space maxLen hpos t.length t (by omega) hws
  rw [show hardSplitFuel t.length maxLen t = hardSplit maxLen t from rfl] at hj hc hr hw
  have hsent : packSentences maxLen voice [t] =
      if (hardSplit maxLen t).2 ≠ []
      then (hardSplit maxLen t).1.map (fun c => (⟨c, voice⟩ : TextChunk)) ++
        [⟨jsTrim (hardSplit maxLen t).2, voice⟩]
      else (hardSplit maxLen t).1.map (fun c => (⟨c, voice⟩ : TextChunk)) := by
    rw [packSentences]
    simp only [List.foldl_cons, List.foldl_nil]
    rw [packStep, jsTrim_eq_self t hws, if_pos hlen]
    simp only [ne_eq, not_true_eq_false, List.nil_append]
    rfl
  have htr2 : jsTrim (hardSplit maxLen t).2 = (hardSplit maxLen t).2 :=
    jsTrim_eq_self _ hw
  by_cases hrem : (hardSplit maxLen t).2 ≠ []
  · rw [hsent, if_pos hrem, htr2]
    refine ⟨?_, ?_, ?_, ?_⟩
    · rw [List.map_append, List.map_map]
      rw [List.flatten_append]
      show (List.map (fun c => c) (hardSplit maxLen t).1).flatten ++
        ((hardSplit maxLen t).2 ++ []) = t
      rw [List.map_id', List.append_nil]
      exact hj
    · intro c hcm
      rw [List.dropLast_concat] at hcm
      rw [List.mem_map] at hcm
      obtain ⟨x, hx, rfl⟩ := hcm
      exact hc x hx
    · intro c hcm
      simp only [List.mem_append, List.mem_map, List.mem_singleton] at hcm
      rcases hcm with ⟨x, hx, rfl⟩ | rfl
      · show x.length ≤ maxLen
        rw [hc x hx]
      · show (hardSplit maxLen t).2.length ≤ maxLen
        exact hr
    · intro c hcm
      simp only [List.mem_append, List.mem_map, List.mem_singleton] at hcm
      rcases hcm with ⟨x, hx, rfl⟩ | rfl <;> rfl
  · rw [hsent, if_neg hrem]
    have hremnil : (hardSplit maxLen t).2 = [] := by
      by_contra hne
      exact hrem hne
    refine ⟨?_, ?_, ?_, ?_⟩
    · rw [List.map_map]
      show (List.map (fun c => c) (hardSplit maxLen t).1).flatten = t
      rw [List.map_id']
      rw [hremnil, List.append_nil] at hj
      exact hj
    · intro c hcm
      have hcm2 := List.dropLast_sublist
        ((hardSplit maxLen t).1.map (fun c => (⟨c, voice⟩ : TextChunk)))
      have hcm3 := hcm2.subset hcm
      rw [List.mem_map] at hcm3
      obtain ⟨x, hx, rfl⟩ := hcm3
      exact hc x hx
    · intro c hcm
      rw [List.mem_map] at hcm
      obtain ⟨x, hx, rfl⟩ := hcm
      show x.length ≤ maxLen
      rw [hc x hx]
    · intro c hcm
      rw [List.mem_map] at hcm
      obtain ⟨x, hx, rfl⟩ := hcm
      rfl

/-- C2 witness: the 7-letter token `abcdefg` with limit 3 splits into
`abc`, `def`, `g`. -/
theorem hard_split_exact_example :
    ((packSentences 3 "af_bella" ["abcdefg".data]).map (fun c => c.text)).flatten =
      "abcdefg".data ∧
    (∀ c ∈ (packSentences 3 "af_bella" ["abcdefg".data]).dropLast, c.text.length = 3) :=
  ⟨(hard_split_exact 3 "af_bella" "abcdefg".data (by decide) (by decide) (by decide)).1,
   (hard_split_exact 3 "af_bella" "abcdefg".data (by decide) (by decide) (by decide)).2.1⟩

/-! ### Claim C3: positions of produced voice assignments -/

theorem kttsMatch_facts (l : List Char) (n : Nat) (code : List Char)
    (h : kttsMatch l = some (n, code)) :
    5 ≤ n ∧ l.get? n = some '"' ∧ ∃ c t, l = c :: t ∧ lowerChar c = 'k' := by
  rcases l with - | ⟨k, - | ⟨t1, - | ⟨t2, - | ⟨t3, rest⟩⟩⟩⟩
  · exact absurd h (by simp [kttsMatch])
  · exact absurd h (by simp [kttsMatch])
  · exact absurd h (by simp [kttsMatch])
  · exact absurd h (by simp [kttsMatch])
  rw [kttsMatch] at h
  by_cases hk : lowerChar k = 'k' ∧ lowerChar t1 = 't' ∧ lowerChar t2 = 't' ∧
      lowerChar t3 = 's'
  · rw [if_pos hk] at h
    by_cases hq : rest.takeWhile isAsciiLetter ≠ [] ∧
        rest.get? (rest.takeWhile isAsciiLetter).length = some '"'
    · rw [if_pos hq] at h
      obtain ⟨heq1, heq2⟩ := Prod.mk.injEq .. ▸ Option.some.inj h
      obtain ⟨hne, hget⟩ := hq
      have hlen1 : 1 ≤ (rest.takeWhile isAsciiLetter).length := by
        cases hh : rest.takeWhile isAsciiLetter with
        | nil => exact absurd hh hne
        | cons a t => simp [hh]
      refine ⟨by omega, ?_, ⟨k, t1 :: t2 :: t3 :: rest, rfl, hk.1⟩⟩
      have hstep : (k :: t1 :: t2 :: t3 :: rest).get? n =
          rest.get? (n - 4) := by
        have h4 : n = (n - 4) + 4 := by omega
        rw [h4]
        rfl
      rw [hstep]
      have : n - 4 = (rest.takeWhile isAsciiLetter).length := by omega
      rw [this]
      exact hget
    · rw [if_neg hq] at h
      exact absurd h (by simp)
  · rw [if_neg hk] at h
    exact absurd h (by simp)

theorem kttsScanFuel_spec (fuel : Nat) :
    ∀ (cs : List Char) (i : Nat),
      (∀ m ∈ kttsScanFuel fuel cs i, i ≤ m.1 ∧
        kttsMatch (cs.drop (m.1 - i)) = some (m.2.1, m.2.2)) ∧
      List.Pairwise (fun a b : Nat × Nat × List Char => a.1 + a.2.1 < b.1)
        (kttsScanFuel fuel cs i) := by
  induction fuel with
  | zero =>
    intro cs i
    exact ⟨by simp [kttsScanFuel], by simp [kttsScanFuel]⟩
  | succ fuel ih =>
    intro cs i
    cases cs with
    | nil => exact ⟨by simp [kttsScanFuel], by simp [kttsScanFuel]⟩
    | cons c rest =>
      rw [kttsScanFuel]
      cases hm : kttsMatch (c :: rest) with
      | none =>
        obtain ⟨ihs, ihp⟩ := ih rest (i + 1)
        refine ⟨?_, ihp⟩
        intro m hm2
        obtain ⟨h1, h2⟩ := ihs m hm2
        refine ⟨by omega, ?_⟩
        have hd : (c :: rest).drop (m.1 - i) = rest.drop (m.1 - (i + 1)) := by
          have harith : m.1 - i = (m.1 - (i + 1)) + 1 := by omega
          rw [harith, List.drop_succ_cons]
        rw [hd]
        exact h2
      | some nc =>
        obtain ⟨n, code⟩ := nc
        obtain ⟨h5, hq, -⟩ := kttsMatch_facts _ _ _ hm
        obtain ⟨ihs, ihp⟩ := ih ((c :: rest).drop n) (i + n)
        constructor
        · intro m hm2
          simp only [List.mem_cons] at hm2
          rcases hm2 with rfl | hm2
          · refine ⟨Nat.le_refl i, ?_⟩
            simp only [Nat.sub_self, List.drop_zero]
            exact hm
          · obtain ⟨h1, h2⟩ := ihs m hm2
            refine ⟨by omega, ?_⟩
            rw [List.drop_drop] at h2
            have harith : n + (m.1 - (i + n)) = m.1 - i := by omega
            rw [harith] at h2
            exact h2
        · rw [List.pairwise_cons]
          refine ⟨?_, ihp⟩
          intro m hm2
          obtain ⟨h1, h2⟩ := ihs m hm2
          show i + n < m.1
          rcases Nat.lt_or_ge (i + n) m.1 with hlt | hge
          · exact hlt
          · exfalso
            have heq : m.1 = i + n := by omega
            rw [heq] at h2
            simp only [Nat.sub_self, List.drop_zero] at h2
            obtain ⟨-, -, d, tl, hdt, hdk⟩ := kttsMatch_facts _ _ _ h2
            have hgd : (c :: rest).get? n = some d := get?_of_drop_eq_cons _ _ _ _ hdt
            rw [hq] at hgd
            have hd : d = '"' := (Option.some.inj hgd).symm
            rw [hd] at hdk
            exact absurd hdk (by decide)

theorem removeAt_get?_lt (l : List Char) (p n q : Nat) (hq : q < p) (hp : p ≤ l.length) :
    (removeAt l p n).get? q = l.get? q := by
  rw [removeAt]
  rw [List.get?_append]
  · exact List.get?_take hq
  · rw [List.length_take]
    omega

theorem removeAt_get?_self (l : List Char) (p n : Nat) (hp : p ≤ l.length) :
    (removeAt l p n).get? p = l.get? (p + n) := by
  rw [removeAt]
  rw [List.get?_append_right]
  · rw [List.length_take, Nat.min_eq_left hp]
    rw [Nat.sub_self]
    rw [get?_drop_eq, Nat.add_zero]
  · rw [List.length_take]
    omega

theorem removeAt_drop (l : List Char) (p n x : Nat) (hx : p + n ≤ x) (hp : p ≤ l.length) :
    (removeAt l p n).drop (x - n) = l.drop x := by
  rw [removeAt]
  have hsplit : x - n = (l.take p).length + (x - n - p) := by
    rw [List.length_take, Nat.min_eq_left hp]
    omega
  rw [hsplit, List.drop_append, List.drop_drop]
  have harith : p + n + (x - n - p) = x := by omega
  rw [harith]

theorem kttsFold_inv (vm : VoiceMap) (sel : String) :
    ∀ (ms : List (Nat × Nat × List Char)) (res : List Char) (off : Nat)
      (vas : List VoiceAssignment),
      (∀ va ∈ vas, res.get? va.start = some '"') →
      List.Pairwise (fun a b : VoiceAssignment => a.start < b.start) vas →
      (∀ m ∈ ms, off ≤ m.1 ∧ kttsMatch (res.drop (m.1 - off)) = some (m.2.1, m.2.2)) →
      (∀ va ∈ vas, ∀ m ∈ ms, va.start < m.1 - off) →
      List.Pairwise (fun a b : Nat × Nat × List Char => a.1 + a.2.1 < b.1) ms →
      (∀ va ∈ (ms.foldl (kttsApply vm sel) (res, off, vas)).2.2,
        (ms.foldl (kttsApply vm sel) (res, off, vas)).1.get? va.start = some '"') ∧
      List.Pairwise (fun a b : VoiceAssignment => a.start < b.start)
        (ms.foldl (kttsApply vm sel) (res, off, vas)).2.2 := by
  intro ms
  induction ms with
  | nil =>
    intro res off vas hA hB hC hD hE
    exact ⟨hA, hB⟩
  | cons m ms ih =>
    intro res off vas hA hB hC hD hE
    simp only [List.foldl_cons]
    obtain ⟨hoff, hmatch⟩ := hC m (List.mem_cons_self m ms)
    obtain ⟨h5, hq, -⟩ := kttsMatch_facts _ _ _ hmatch
    rw [get?_drop_eq] at hq
    have hqlt : m.1 - off + m.2.1 < res.length := by
      rw [List.get?_eq_some] at hq
      obtain ⟨hlt, -⟩ := hq
      exact hlt
    have hplt : m.1 - off ≤ res.length := by omega
    have hrel : ∀ m2 ∈ ms, m.1 + m.2.1 < m2.1 := (List.pairwise_cons.mp hE).1
    have hstep : kttsApply vm sel (res, off, vas) m =
        (removeAt res (m.1 - off) m.2.1, off + m.2.1,
          vas ++ [⟨m.1 - off, getVoiceFromCode vm sel (lowerStr (String.mk m.2.2))⟩]) := rfl
    rw [hstep]
    apply ih
    · intro va hva
      simp only [List.mem_append, List.mem_singleton] at hva
      rcases hva with hva | rfl
      · rw [removeAt_get?_lt res (m.1 - off) m.2.1 va.start
          (hD va hva m (List.mem_cons_self m ms)) hplt]
        exact hA va hva
      · show (removeAt res (m.1 - off) m.2.1).get? (m.1 - off) = some '"'
        rw [removeAt_get?_self res (m.1 - off) m.2.1 hplt]
        exact hq
    · rw [List.pairwise_append]
      refine ⟨hB, List.pairwise_singleton _ _, ?_⟩
      intro a ha b hb
      simp only [List.mem_singleton] at hb
      subst hb
      exact hD a ha m (List.mem_cons_self m ms)
    · intro m2 hm2
      obtain ⟨hc1, hc2⟩ := hC m2 (List.mem_cons_of_mem m hm2)
      have hgt := hrel m2 hm2
      refine ⟨by omega, ?_⟩
      have hd : (removeAt res (m.1 - off) m.2.1).drop (m2.1 - (off + m.2.1)) =
          res.drop (m2.1 - off) := by
        have harith : m2.1 - (off + m.2.1) = (m2.1 - off) - m.2.1 := by omega
        rw [harith]
        exact removeAt_drop res (m.1 - off) m.2.1 (m2.1 - off) (by omega) hplt
      rw [hd]
      exact hc2
    · intro va hva m2 hm2
      have hgt := hrel m2 hm2
      simp only [List.mem_append, List.mem_singleton] at hva
      rcases hva with hva | rfl
      · have := hD va hva m (List.mem_cons_self m ms)
        show va.start < m2.1 - (off + m.2.1)
        omega
      · show m.1 - off < m2.1 - (off + m.2.1)
        omega
    · exact (List.pairwise_cons.mp hE).2

/-- C3 (amended): the assignments produced by `preprocessText` have
strictly increasing positions, and every position is the offset of a
quotation mark in the cleaned text — but not necessarily of an OPENING
quotation mark (see `assignment_at_closing_quote`). -/
theorem preprocess_assignment_positions (vm : VoiceMap) (sel : String) (text : List Char) :
    List.Pairwise (fun a b : VoiceAssignment => a.start < b.start)
      (preprocessText vm sel text).2 ∧
    ∀ va ∈ (preprocessText vm sel text).2,
      (preprocessText vm sel text).1.get? va.start = some '"' := by
  obtain ⟨hs, hp⟩ := kttsScanFuel_spec (normalizeQuotes text).length (normalizeQuotes text) 0
  have h := kttsFold_inv vm sel (kttsScan (normalizeQuotes text)) (normalizeQuotes text) 0 []
    (by intro va hva; simp at hva)
    (by simp)
    (by
      intro m hm
      obtain ⟨h1, h2⟩ := hs m hm
      exact ⟨Nat.zero_le _, h2⟩)
    (by intro va hva; simp at hva)
    hp
  exact ⟨h.2, h.1⟩

/-! ### Claim C8: the quoted clause is not split at its inner period -/

theorem splitParsFuel_no_newline (cs : List Char) :
    ∀ (fuel : Nat) (cur : List Char), (∀ c ∈ cs, ¬ c = '\n') →
      splitParsFuel fuel cur cs = [cur ++ cs] := by
  induction cs with
  | nil =>
    intro fuel cur h
    cases fuel with
    | zero => rfl
    | succ fuel => show [cur] = [cur ++ []]; rw [List.append_nil]
  | cons c rest ih =>
    intro fuel cur h
    cases fuel with
    | zero => rfl
    | succ fuel =>
      rw [splitParsFuel, if_neg (h c (List.mem_cons_self c rest))]
      rw [ih fuel (cur ++ [c]) (fun d hd => h d (List.mem_cons_of_mem c hd))]
      rw [List.append_assoc]
      rfl

theorem splitParagraphs_no_newline (cs : List Char) (h : ∀ c ∈ cs, ¬ c = '\n') :
    splitParagraphs cs = [cs] := by
  rw [splitParagraphs, splitParsFuel_no_newline cs cs.length [] h]
  rfl

/-- A packer step that simply appends the (trimmed, fitting) sentence to
the buffer with a joining space. -/
theorem packStep_append_small (maxLen : Nat) (v : String) (chunks : List TextChunk)
    (cur t : List Char) (htr : jsTrim t = t)
    (hfit : cur.length + t.length + 1 ≤ maxLen) :
    packStep maxLen v (chunks, cur) t =
      (chunks, cur ++ (if cur ≠ [] then [' '] else []) ++ t) := by
  rw [packStep, htr]
  rw [if_neg (by show ¬ t.length > maxLen; omega)]
  rw [if_neg (by show ¬ cur.length + t.length + 1 > maxLen; omega)]

theorem packSentences_single_small (maxLen : Nat) (v : String) (t : List Char)
    (htr : jsTrim t = t) (hle : t.length + 1 ≤ maxLen) (hne : t ≠ []) :
    packSentences maxLen v [t] = [⟨t, v⟩] := by
  have h1 : packStep maxLen v ([], []) t =
      ([], [] ++ (if ([] : List Char) ≠ [] then [' '] else []) ++ t) :=
    packStep_append_small maxLen v [] [] t htr (by simp; omega)
  have e1 : ([] ++ (if ([] : List Char) ≠ [] then [' '] else []) ++ t : List Char) = t := by
    simp
  rw [packSentences]
  simp only [List.foldl_cons, List.foldl_nil]
  rw [h1, e1]
  show (if t ≠ [] then ([] : List TextChunk) ++ [⟨jsTrim t, v⟩] else []) = [⟨t, v⟩]
  rw [if_pos hne, htr, List.nil_append]

theorem packSentences_pair_small (maxLen : Nat) (v : String) (t1 t2 : List Char)
    (htr1 : jsTrim t1 = t1) (htr2 : jsTrim t2 = t2)
    (htr12 : jsTrim (t1 ++ ' ' :: t2) = t1 ++ ' ' :: t2)
    (hsum : t1.length + t2.length + 1 ≤ maxLen) (hne1 : t1 ≠ []) :
    packSentences maxLen v [t1, t2] = [⟨t1 ++ ' ' :: t2, v⟩] := by
  have h1 : packStep maxLen v ([], []) t1 =
      ([], [] ++ (if ([] : List Char) ≠ [] then [' '] else []) ++ t1) :=
    packStep_append_small maxLen v [] [] t1 htr1 (by simp; omega)
  have e1 : ([] ++ (if ([] : List Char) ≠ [] then [' '] else []) ++ t1 : List Char) = t1 := by
    simp
  have h2 : packStep maxLen v ([], t1) t2 =
      ([], t1 ++ (if t1 ≠ [] then [' '] else []) ++ t2) :=
    packStep_append_small maxLen v [] t1 t2 htr2 (by omega)
  have e2 : (t1 ++ (if t1 ≠ [] then [' '] else []) ++ t2 : List Char) = t1 ++ ' ' :: t2 := by
    rw [if_pos hne1, List.append_assoc]
    rfl
  have hne12 : t1 ++ ' ' :: t2 ≠ [] := by
    cases t1 <;> simp
  rw [packSentences]
  simp only [List.foldl_cons, List.foldl_nil]
  rw [h1, e1, h2, e2]
  show (if (t1 ++ ' ' :: t2 : List Char) ≠ [] then
      ([] : List TextChunk) ++ [⟨jsTrim (t1 ++ ' ' :: t2), v⟩] else []) =
    [⟨t1 ++ ' ' :: t2, v⟩]
  rw [if_pos hne12, htr12, List.nil_append]

/-- C8 (amended): for every voice map and every configuration with
`maxChunkLength ≥ 10`, `He said "Stop. Now." and left.` is chunked as
exactly `He said` / `Stop. Now.` / `and left.`: the two sentences of the
quoted clause stay in one chunk (no boundary at the period inside the
quotation), while boundaries before and after the quoted clause arise from
segment typing. -/
theorem quote_aware_packing (vm : VoiceMap) (s : KokoroTTSSettings)
    (h10 : 10 ≤ s.maxChunkLength) :
    (splitIntoChunks vm s "He said \"Stop. Now.\" and left.".data).map (fun c => c.text) =
      ["He said".data, "Stop. Now.".data, "and left.".data] := by
  have hT : ∀ c ∈ "He said \"Stop. Now.\" and left.".data, ¬ c = '\n' := by decide
  have hpar : splitParagraphs "He said \"Stop. Now.\" and left.".data =
      ["He said \"Stop. Now.\" and left.".data] := splitParagraphs_no_newline _ hT
  have hscan : kttsScan (normalizeQuotes "He said \"Stop. Now.\" and left.".data) = [] := by
    decide
  have hnorm : normalizeQuotes "He said \"Stop. Now.\" and left.".data =
      "He said \"Stop. Now.\" and left.".data := by decide
  have hpre : preprocessText vm s.selectedVoice "He said \"Stop. Now.\" and left.".data =
      ("He said \"Stop. Now.\" and left.".data, []) := by
    rw [preprocessText, hscan]
    simp only [List.foldl_nil]
    rw [hnorm]
  have hseg : splitIntoSegments vm s.selectedVoice
      "He said \"Stop. Now.\" and left.".data =
      [⟨"He said ".data, "normal".data⟩, ⟨"Stop. Now.".data, "quoted".data⟩,
       ⟨" and left.".data, "normal".data⟩] := by
    rw [splitIntoSegments, hpre]
    decide
  have hsp1 : splitPreservingQuotes "He said ".data = ["He said".data] := by decide
  have hsp2 : splitPreservingQuotes "Stop. Now.".data =
      ["Stop.".data, "Now.".data] := by decide
  have hsp3 : splitPreservingQuotes " and left.".data = ["and left.".data] := by decide
  have hp1 : packSentences s.maxChunkLength (getVoiceForSegment s "normal".data)
      ["He said".data] = [⟨"He said".data, getVoiceForSegment s "normal".data⟩] :=
    packSentences_single_small _ _ _ (by decide)
      (by show 7 + 1 ≤ s.maxChunkLength; omega) (by decide)
  have hp2 : packSentences s.maxChunkLength (getVoiceForSegment s "quoted".data)
      ["Stop.".data, "Now.".data] =
      [⟨"Stop.".data ++ ' ' :: "Now.".data, getVoiceForSegment s "quoted".data⟩] :=
    packSentences_pair_small _ _ _ _ (by decide) (by decide) (by decide)
      (by show 5 + 4 + 1 ≤ s.maxChunkLength; omega) (by decide)
  have hp3 : packSentences s.maxChunkLength (getVoiceForSegment s "normal".data)
      ["and left.".data] = [⟨"and left.".data, getVoiceForSegment s "normal".data⟩] :=
    packSentences_single_small _ _ _ (by decide)
      (by show 9 + 1 ≤ s.maxChunkLength; omega) (by decide)
  have key : ((["He said \"Stop. Now.\" and left.".data].map (fun p =>
      ((splitIntoSegments vm s.selectedVoice p).map (fun seg =>
        packSentences s.maxChunkLength (getVoiceForSegment s seg.type)
          (splitPreservingQuotes seg.text))).flatten)).flatten).map (fun c => c.text) =
      ["He said".data, "Stop. Now.".data, "and left.".data] := by
    simp only [List.map_cons, List.map_nil, List.flatten_cons, List.flatten_nil,
      List.append_nil]
    rw [hseg]
    simp only [List.map_cons, List.map_nil, List.flatten_cons, List.flatten_nil]
    rw [hsp1, hsp2, hsp3, hp1, hp2, hp3]
    simp only [List.append_nil, List.map_append, List.map_cons, List.map_nil]
    decide
  rw [splitIntoChunks]
  by_cases hrp : s.respectParagraphs = true
  · rw [if_pos hrp, hpar]
    exact key
  · rw [if_neg hrp]
    exact key

/-- C8 witness: the default configuration (limit 500) produces the three
chunks, with `Stop. Now.` intact. -/
theorem quote_aware_packing_example :
    (splitIntoChunks stockVoiceMap defaultSettings
        "He said \"Stop. Now.\" and left.".data).map (fun c => c.text) =
      ["He said".data, "Stop. Now.".data, "and left.".data] :=
  quote_aware_packing stockVoiceMap defaultSettings (by decide)

/-! ### Claim C4: inline voice-code resolution through the full pipeline -/

theorem lowerChar_val (c : Char) (h : 65 ≤ c.val.toNat ∧ c.val.toNat ≤ 90) :
    (lowerChar c).val.toNat = c.val.toNat + 32 := by
  rw [lowerChar, dif_pos h]
  show (c.val + 32).toNat = c.val.toNat + 32
  have e32 : (32 : UInt32).toNat = 32 := rfl
  have hlt : c.val.toNat < 2 ^ 32 := c.val.toNat_lt
  rw [UInt32.toNat_add, e32]
  have hsz : UInt32.size = 2 ^ 32 := rfl
  rw [hsz]
  omega

theorem lowerChar_eq_self (c : Char) (h : ¬(65 ≤ c.val.toNat ∧ c.val.toNat ≤ 90)) :
    lowerChar c = c := by
  rw [lowerChar, dif_neg h]

theorem lowerChar_idem (c : Char) : lowerChar (lowerChar c) = lowerChar c := by
  by_cases h : 65 ≤ c.val.toNat ∧ c.val.toNat ≤ 90
  · apply lowerChar_eq_self
    rw [lowerChar_val c h]
    omega
  · rw [lowerChar_eq_self c h, lowerChar_eq_self c h]

theorem lowerStr_idem (st : String) : lowerStr (lowerStr st) = lowerStr st := by
  show String.mk (((st.data.map lowerChar)).map lowerChar) = String.mk (st.data.map lowerChar)
  rw [List.map_map]
  exact congrArg String.mk (List.map_congr_left (fun c _ => lowerChar_idem c))

theorem lowerStr_ne_empty (code : String) (hne : code.data ≠ []) : lowerStr code ≠ "" := by
  intro h
  apply hne
  have hdata : code.data.map lowerChar = ([] : List Char) := by
    show (lowerStr code).data = ([] : List Char)
    rw [h]
  exact List.map_eq_nil_iff.mp hdata

theorem getVoiceFromCode_known (vm : VoiceMap) (sel : String) (code cv : String)
    (hne : code.data ≠ []) (hmap : mapGet vm (lowerStr code) = some cv) (hcv : cv ≠ "") :
    getVoiceFromCode vm sel (lowerStr code) = cv := by
  simp only [getVoiceFromCode]
  rw [if_neg (lowerStr_ne_empty code hne), lowerStr_idem, hmap]
  show (if cv = "" then
      (if isPrefixedVoiceName (lowerStr code) = true then lowerStr code else sel)
    else cv) = cv
  rw [if_neg hcv]

theorem getVoiceFromCode_unknown (vm : VoiceMap) (sel : String) (code : String)
    (hne : code.data ≠ []) (hmap : mapGet vm (lowerStr code) = none) :
    getVoiceFromCode vm sel (lowerStr code) = sel := by
  simp only [getVoiceFromCode]
  rw [if_neg (lowerStr_ne_empty code hne), lowerStr_idem, hmap]

theorem normChar_letter (c : Char) (h : isAsciiLetter c = true) : normChar c = c := by
  rw [normChar, if_neg]
  intro hc
  rcases hc with rfl | rfl | rfl | rfl | rfl <;> exact absurd h (by decide)

theorem takeWhile_all_append (xs : List Char) (d : Char) (t : List Char)
    (hxs : ∀ c ∈ xs, isAsciiLetter c = true) (hd : isAsciiLetter d = false) :
    (xs ++ d :: t).takeWhile isAsciiLetter = xs := by
  induction xs with
  | nil =>
    rw [List.nil_append, List.takeWhile_cons, hd]
    rfl
  | cons a l ih =>
    rw [List.cons_append, List.takeWhile_cons, hxs a (List.mem_cons_self a l)]
    rw [ih (fun c hc => hxs c (List.mem_cons_of_mem a hc))]
    rw [if_pos rfl]

theorem kttsMatch_code (code : List Char) (rest : List Char)
    (hne : code ≠ []) (hlet : ∀ c ∈ code, isAsciiLetter c = true) :
    kttsMatch ('k' :: 't' :: 't' :: 's' :: (code ++ '"' :: rest)) =
      some (4 + code.length, code) := by
  have hg : (code ++ '"' :: rest).get? code.length = some '"' := by
    have h0 := get?_drop_eq (code ++ '"' :: rest) code.length 0
    rw [List.drop_left, Nat.add_zero] at h0
    rw [← h0]
    rfl
  have htw : (code ++ '"' :: rest).takeWhile isAsciiLetter = code :=
    takeWhile_all_append code '"' rest hlet (by decide)
  simp only [kttsMatch, htw]
  rw [if_pos (by exact ⟨by decide, by decide, by decide, by decide⟩)]
  rw [if_pos ⟨hne, hg⟩]

theorem kttsScanFuel_match (fuel : Nat) (c : Char) (rest : List Char) (i n : Nat)
    (code : List Char) (hm : kttsMatch (c :: rest) = some (n, code)) :
    kttsScanFuel (fuel + 1) (c :: rest) i =
      (i, n, code) :: kttsScanFuel fuel ((c :: rest).drop n) (i + n) := by
  rw [kttsScanFuel, hm]

theorem kttsScanFuel_no_k (cs : List Char) (hk : ∀ c ∈ cs, ¬ lowerChar c = 'k') :
    ∀ (fuel i : Nat), kttsScanFuel fuel cs i = [] := by
  induction cs with
  | nil =>
    intro fuel i
    cases fuel <;> rfl
  | cons c rest ih =>
    intro fuel i
    cases fuel with
    | zero => rfl
    | succ fuel =>
      have hm : kttsMatch (c :: rest) = none := by
        cases hmm : kttsMatch (c :: rest) with
        | none => rfl
        | some nc =>
          exfalso
          have hmm2 : kttsMatch (c :: rest) = some (nc.1, nc.2) := by rw [hmm]
          obtain ⟨-, -, d, t, hdt, hdk⟩ := kttsMatch_facts _ nc.1 nc.2 hmm2
          have hdc : d = c := (List.cons.injEq .. ▸ hdt.symm).1
          rw [hdc] at hdk
          exact hk c (List.mem_cons_self c rest) hdk
      rw [kttsScanFuel, hm]
      exact ih (fun d hd => hk d (List.mem_cons_of_mem c hd)) fuel (i + 1)

theorem ktts_scan_single (code : List Char) (hne : code ≠ [])
    (hlet : ∀ c ∈ code, isAsciiLetter c = true) :
    kttsScan ("ktts".data ++ code ++ "\"hello\"".data) =
      [(0, 4 + code.length, code)] := by
  have hlen : ("ktts".data ++ code ++ "\"hello\"".data).length = code.length + 10 + 1 := by
    rw [List.length_append, List.length_append]
    show 4 + (code.length + 7) = code.length + 10 + 1
    omega
  have hm : kttsMatch ("ktts".data ++ code ++ "\"hello\"".data) =
      some (4 + code.length, code) := by
    show kttsMatch ('k' :: 't' :: 't' :: 's' :: (code ++ '"' :: "hello\"".data)) =
      some (4 + code.length, code)
    exact kttsMatch_code code ("hello\"".data) hne hlet
  have hdrop : ("ktts".data ++ code ++ "\"hello\"".data).drop (4 + code.length) =
      "\"hello\"".data := by
    show (("ktts".data ++ code) ++ "\"hello\"".data).drop (4 + code.length) =
      "\"hello\"".data
    exact List.drop_left' (by rw [List.length_append]; rfl)
  rw [kttsScan, hlen]
  have hstep := kttsScanFuel_match (code.length + 10) 'k'
    ('t' :: 't' :: 's' :: (code ++ '"' :: "hello\"".data)) 0 (4 + code.length) code
    (by exact hm)
  rw [show ("ktts".data ++ code ++ "\"hello\"".data) =
    'k' :: 't' :: 't' :: 's' :: (code ++ '"' :: "hello\"".data) from rfl]
  rw [hstep]
  rw [show ('k' :: 't' :: 't' :: 's' :: (code ++ '"' :: "hello\"".data)).drop
      (4 + code.length) = "\"hello\"".data from hdrop]
  rw [kttsScanFuel_no_k "\"hello\"".data (by decide) (code.length + 10)
    (0 + (4 + code.length))]


/-- C4 (amended): for every voice map, every configuration with
`maxChunkLength ≥ 6` (strictly greater than the length of `hello` plus the
packer's joining-space allowance — smaller limits hard-split or split the
output, see `voice_code_small_limit_cex`), and every non-empty all-letter
code whose resolution is a usable voice identifier, the engine turns
`ktts<code>"hello"` into exactly one chunk with text `hello` carrying the
resolved voice. Resolution is total and defaults on failure: a code bound
in the lookup (case-insensitively) resolves to its non-empty binding, and
an unbound code resolves to the configured default voice — no error. -/
theorem voice_code_resolution (vm : VoiceMap) (s : KokoroTTSSettings) (code : String)
    (h6 : 6 ≤ s.maxChunkLength) (hne : code.data ≠ [])
    (hlet : ∀ c ∈ code.data, isAsciiLetter c = true)
    (hv1 : (getVoiceFromCode vm s.selectedVoice (lowerStr code)).data ≠ [])
    (hv2 : ∀ c ∈ (getVoiceFromCode vm s.selectedVoice (lowerStr code)).data,
      isLineTerminator c = false) :
    splitIntoChunks vm s ("ktts".data ++ code.data ++ "\"hello\"".data) =
      [⟨"hello".data, getVoiceFromCode vm s.selectedVoice (lowerStr code)⟩] ∧
    (∀ cv, mapGet vm (lowerStr code) = some cv → cv ≠ "" →
      getVoiceFromCode vm s.selectedVoice (lowerStr code) = cv) ∧
    (mapGet vm (lowerStr code) = none →
      getVoiceFromCode vm s.selectedVoice (lowerStr code) = s.selectedVoice) := by
  refine ⟨?_,
    fun cv hmap hcv => getVoiceFromCode_known vm s.selectedVoice code cv hne hmap hcv,
    fun hmap => getVoiceFromCode_unknown vm s.selectedVoice code hne hmap⟩
  have hnorm : normalizeQuotes ("ktts".data ++ code.data ++ "\"hello\"".data) =
      "ktts".data ++ code.data ++ "\"hello\"".data := by
    rw [normalizeQuotes, List.map_append, List.map_append]
    rw [show List.map normChar "ktts".data = "ktts".data from by decide]
    rw [show List.map normChar "\"hello\"".data = "\"hello\"".data from by decide]
    rw [show List.map normChar code.data = code.data from by
      calc code.data.map normChar = code.data.map (fun c => c) :=
            List.map_congr_left (fun c hc => normChar_letter c (hlet c hc))
        _ = code.data := List.map_id' _]
  have hdropT : ("ktts".data ++ code.data ++ "\"hello\"".data).drop
      (4 + code.data.length) = "\"hello\"".data := by
    show (("ktts".data ++ code.data) ++ "\"hello\"".data).drop (4 + code.data.length) =
      "\"hello\"".data
    exact List.drop_left' (by rw [List.length_append]; rfl)
  have hpre : preprocessText vm s.selectedVoice
      ("ktts".data ++ code.data ++ "\"hello\"".data) =
      ("\"hello\"".data, [⟨0, getVoiceFromCode vm s.selectedVoice (lowerStr code)⟩]) := by
    simp only [preprocessText]
    rw [hnorm, ktts_scan_single code.data hne hlet]
    simp only [List.foldl_cons, List.foldl_nil, kttsApply]
    rw [show String.mk code.data = code from rfl]
    simp only [Nat.sub_self, Nat.zero_add, List.nil_append]
    rw [removeAt]
    simp only [List.take_zero, List.nil_append, Nat.zero_add]
    rw [hdropT]
  have hsegs : splitIntoSegments vm s.selectedVoice
      ("ktts".data ++ code.data ++ "\"hello\"".data) =
      [⟨"hello".data,
        "quoted:".data ++ (getVoiceFromCode vm s.selectedVoice (lowerStr code)).data⟩] := by
    simp only [splitIntoSegments]
    rw [hpre]
    simp [segLoop, segFlush, List.get?]
  have hTnoNL : ∀ c ∈ ("ktts".data ++ code.data ++ "\"hello\"".data), ¬ c = '\n' := by
    intro c hc
    rcases List.mem_append.mp hc with hc | hc
    · rcases List.mem_append.mp hc with hc | hc
      · intro h
        subst h
        exact absurd hc (by decide)
      · intro h
        subst h
        exact absurd (hlet '\n' hc) (by decide)
    · intro h
      subst h
      exact absurd hc (by decide)
  have hpar : splitParagraphs ("ktts".data ++ code.data ++ "\"hello\"".data) =
      [("ktts".data ++ code.data ++ "\"hello\"".data)] :=
    splitParagraphs_no_newline _ hTnoNL
  have hsp : splitPreservingQuotes "hello".data = ["hello".data] := by decide
  have hvseg := getVoiceForSegment_inline s
    (getVoiceFromCode vm s.selectedVoice (lowerStr code)) hv1 hv2
  have hpk := packSentences_single_small s.maxChunkLength
    (getVoiceFromCode vm s.selectedVoice (lowerStr code)) "hello".data (by decide)
    (by show 5 + 1 ≤ s.maxChunkLength; omega) (by decide)
  have key : (([("ktts".data ++ code.data ++ "\"hello\"".data)].map (fun p =>
      ((splitIntoSegments vm s.selectedVoice p).map (fun seg =>
        packSentences s.maxChunkLength (getVoiceForSegment s seg.type)
          (splitPreservingQuotes seg.text))).flatten)).flatten) =
      [⟨"hello".data, getVoiceFromCode vm s.selectedVoice (lowerStr code)⟩] := by
    simp only [List.map_cons, List.map_nil, List.flatten_cons, List.flatten_nil,
      List.append_nil]
    rw [hsegs]
    simp only [List.map_cons, List.map_nil, List.flatten_cons, List.flatten_nil]
    rw [hvseg, hsp, hpk]
    simp
  rw [splitIntoChunks]
  by_cases hrp : s.respectParagraphs = true
  · rw [if_pos hrp, hpar]
    exact key
  · rw [if_neg hrp]
    exact key

/-- C4 witness: with the stock voice map and default settings, code
`bella` resolves to `af_bella` and `kttsbella"hello"` yields the single
chunk `hello` spoken by `af_bella`. -/
theorem voice_code_resolution_example :
    splitIntoChunks stockVoiceMap defaultSettings
        ("ktts".data ++ "bella".data ++ "\"hello\"".data) =
      [⟨"hello".data, "af_bella"⟩] := by
  have h := (voice_code_resolution stockVoiceMap defaultSettings "bella" (by decide)
    (by decide) (by decide) (by decide) (by decide)).1
  rw [h]
  decide

end KokoroTTS
